import Mathlib

/-!
Verification of the ZecKit readiness and bootstrap orchestrator (Rust CLI).

The Rust sources are shallowly embedded: console text is modelled as
`List Char`, Rust `str` operations (`contains`, `split`, `trim`, `lines`,
`replace`, `find`) are re-implemented over character lists, fallible code
returns `Except`, and monetary amounts are modelled exactly in `ℚ`
(the Rust code stores `i64 as f64 / 100_000_000.0`; for every fact proved
here, the `f64` computation is exact, so `ℚ` is a faithful abstraction of
the values and of their signs).  External effects (HTTP probes, docker
execs, the block-height RPC) are passed in as oracles, so a loop that
polls a service becomes a function of the sequence of probe outcomes.
-/

deriving instance DecidableEq for Except

namespace ZecKit

/-! ## Text primitives (models of Rust `str` operations) -/

/-- Model of Rust `str::starts_with`: `startsWithCL s pat` is true iff
`pat` is a prefix of `s`. -/
def startsWithCL : List Char → List Char → Bool
  | _, [] => true
  | [], _ :: _ => false
  | c :: s, d :: p => c = d && startsWithCL s p

/-- Model of Rust `str::contains` (substring containment). -/
def containsCL : List Char → List Char → Bool
  | [], pat => startsWithCL [] pat
  | c :: s, pat => startsWithCL (c :: s) pat || containsCL s pat

/-- Prepend a character to the first chunk of a split result. -/
def consHead (c : Char) : List (List Char) → List (List Char)
  | [] => [[c]]
  | h :: t => (c :: h) :: t

/-- Model of Rust `str::split(sep)` for a single-character separator. -/
def splitOnCharCL (sep : Char) : List Char → List (List Char)
  | [] => [[]]
  | c :: s =>
    if c = sep then [] :: splitOnCharCL sep s
    else consHead c (splitOnCharCL sep s)

/-- Drop one trailing carriage return, as Rust `str::lines` does. -/
def stripCR (l : List Char) : List Char :=
  match l.getLast? with
  | some c => if c = '\r' then l.dropLast else l
  | none => l

/-- Model of Rust `str::lines`: split on newline, no empty final line,
one trailing `\r` stripped from each line. -/
def rustLines (s : List Char) : List (List Char) :=
  let parts := splitOnCharCL '\n' s
  let noTrail :=
    match parts.getLast? with
    | some [] => parts.dropLast
    | _ => parts
  noTrail.map stripCR

/-- Model of Rust `str::trim` (restricted to ASCII whitespace, which is
all the wallet console emits). -/
def trimCL (s : List Char) : List Char :=
  ((s.dropWhile Char.isWhitespace).reverse.dropWhile Char.isWhitespace).reverse

/-- The character class `[a-zA-Z0-9]` of the miner-address regex. -/
def isAlnumAscii (c : Char) : Bool := c.isAlpha || c.isDigit

/-- Accumulate a decimal value over a run of digits; fails on any
non-digit character. -/
def digitsValAux : Nat → List Char → Option Nat
  | acc, [] => some acc
  | acc, c :: s => if c.isDigit then digitsValAux (acc * 10 + (c.toNat - 48)) s else none

/-- Largest `i64` value. -/
def i64Max : Nat := 9223372036854775807

/-- Value of a nonempty all-digit string, bounded by the given cap. -/
def digitsBounded (cap : Nat) (s : List Char) : Option Nat :=
  match s, digitsValAux 0 s with
  | _ :: _, some n => if n ≤ cap then some n else none
  | _, _ => none

/-- Model of Rust `str::parse::<i64>`: optional sign, one or more ASCII
digits, and an `i64` range check. -/
def parseI64 : List Char → Option Int
  | [] => none
  | c :: s =>
    if c = '+' then (digitsBounded i64Max s).map Int.ofNat
    else if c = '-' then (digitsBounded (i64Max + 1) s).map (fun n => -Int.ofNat n)
    else (digitsBounded i64Max (c :: s)).map Int.ofNat

/-! ## Balance extraction (`get_wallet_balance`, cli/src/commands/test.rs) -/

/-- Field marker for the transparent balance line. -/
def tFieldName : List Char := "confirmed_transparent_balance".data

/-- Field marker for the orchard balance line. -/
def oFieldName : List Char := "confirmed_orchard_balance".data

/-- One line of the balance scan: if the line contains the field name,
split on `:`, take the second piece, trim it, strip `_` and `,`, and
parse it as an `i64`; any failure yields `none`. -/
def balanceLineValue (field line : List Char) : Option Int :=
  if containsCL line field then
    match splitOnCharCL ':' line with
    | _ :: val :: _ =>
        parseI64 (((trimCL val).filter (fun c => c != '_')).filter (fun c => c != ','))
    | _ => none
  else none

/-- One step of the fold in `get_wallet_balance`: each field is updated
independently when its line parses, and keeps its previous value
otherwise. -/
def balStep (st : ℚ × ℚ) (line : List Char) : ℚ × ℚ :=
  let t :=
    match balanceLineValue tFieldName line with
    | some bal => (bal : ℚ) / 100000000
    | none => st.1
  let o :=
    match balanceLineValue oFieldName line with
    | some bal => (bal : ℚ) / 100000000
    | none => st.2
  (t, o)

/-- Model of `get_wallet_balance`: scan the console output line by line,
starting from a zero pair. -/
def get_wallet_balance (text : List Char) : ℚ × ℚ :=
  (rustLines text).foldl balStep (0, 0)

/-! ## Config mutation (`update_zebra_miner_address`, cli/src/commands/up.rs)

The Rust code matches the regex `miner_address = "tm[a-zA-Z0-9]+"` with
`Regex::replace`, which rewrites only the first (leftmost) match.  For
this pattern the leftmost match is: the literal `miner_address = "tm`,
then the maximal run of ASCII alphanumerics, then a closing quote
(backtracking cannot shorten the run, because the character after a
shorter run would be alphanumeric and so could not be the quote). -/

/-- The fixed literal part of the miner-address regex. -/
def literalPart : List Char := "miner_address = \"tm".data

/-- The replacement text `miner_address = "{address}"`. -/
def minerField (address : List Char) : List Char :=
  "miner_address = \"".data ++ address ++ ['"']

/-- The part of a regex match after the literal: `rest` is the text
following the literal, and a match needs a nonempty alphanumeric run
followed directly by a quote.  Returns the whole match's length. -/
def matchAfter (rest : List Char) : Option Nat :=
  if (rest.takeWhile isAlnumAscii).length ≠ 0
      ∧ (rest.drop (rest.takeWhile isAlnumAscii).length).take 1 = ['"'] then
    some (literalPart.length + (rest.takeWhile isAlnumAscii).length + 1)
  else none

/-- Does a regex match start at the head of `s`?  Returns its length. -/
def matchAt (s : List Char) : Option Nat :=
  if startsWithCL s literalPart then matchAfter (s.drop literalPart.length)
  else none

/-- Model of `Regex::replace`: rewrite the leftmost match, if any. -/
def replaceFirstMiner (repl : List Char) : List Char → List Char
  | [] => []
  | c :: s =>
    match matchAt (c :: s) with
    | some len => repl ++ (c :: s).drop len
    | none => c :: replaceFirstMiner repl s

/-- The `[mining]` section header. -/
def miningPat : List Char := "[mining]".data

/-- Model of Rust `String::replace` specialised to the pattern
`[mining]` (all occurrences, left to right, non-overlapping). -/
def replaceAllMining (repl : List Char) : List Char → List Char
  | '[' :: 'm' :: 'i' :: 'n' :: 'i' :: 'n' :: 'g' :: ']' :: rest =>
      repl ++ replaceAllMining repl rest
  | c :: rest => c :: replaceAllMining repl rest
  | [] => []

/-- The substring the branch condition tests for. -/
def minerAddrPat : List Char := "miner_address".data

/-- Model of `update_zebra_miner_address` on the file contents: if a
miner-address field exists, rewrite the first regex match in place,
otherwise insert the field right after every `[mining]` header. -/
def update_zebra_miner_address (address config : List Char) : List Char :=
  if containsCL config minerAddrPat then
    replaceFirstMiner (minerField address) config
  else
    replaceAllMining (miningPat ++ '\n' :: minerField address) config

/-- Crash model of Rust `fs::write`: the target file is truncated and
then written front to back, so a process stopping at step `k` leaves the
first `k` characters of the new contents on disk. -/
def directWriteStates (newContents : List Char) : List (List Char) :=
  (List.range (newContents.length + 1)).map (fun k => newContents.take k)

/-- On-disk contents reachable when the process stops during the
`fs::write` call of `update_zebra_miner_address` (the code writes the
config path directly; no temp file and no rename are involved). -/
def updateMinerCrashStates (address config : List Char) : List (List Char) :=
  directWriteStates (update_zebra_miner_address address config)

/-! ## Bootstrap mining phase (`execute` and `wait_for_mined_blocks`, up.rs)

The height oracle `heights i` is the result of the `getblockcount` RPC at
the i-th poll (`none` models a failed call, which the loop ignores).  The
elapsed-time bound `MAX_WAIT_SECONDS` becomes a poll budget `fuel`. -/

/-- Error message of the mining-maturity timeout. -/
def minerTimeoutMsg : List Char :=
  "Internal miner timeout - blocks not reaching maturity".data

/-- Model of `wait_for_mined_blocks`: poll the height oracle until it
reaches `minBlocks`, failing when the budget is exhausted. -/
def wait_for_mined_blocks (heights : Nat → Option Nat) (minBlocks : Nat) :
    Nat → Nat → Except (List Char) Nat
  | 0, _ => .error minerTimeoutMsg
  | fuel + 1, i =>
    match heights i with
    | some h =>
      if minBlocks ≤ h then .ok h
      else wait_for_mined_blocks heights minBlocks fuel (i + 1)
    | none => wait_for_mined_blocks heights minBlocks fuel (i + 1)

/-- Warning printed when wallet-address discovery fails. -/
def warnAddr (e : List Char) : List Char :=
  "Warning: Could not get wallet address: ".data ++ e

/-- Warning printed when the config patch fails. -/
def warnPatch (e : List Char) : List Char :=
  "Warning: Could not update zebra.toml: ".data ++ e

/-- Warning printed when the node restart fails. -/
def warnRestart (e : List Char) : List Char :=
  "Warning: Zebra restart had issues: ".data ++ e

/-- The address-discovery / config-patch / node-restart block of
`execute` (up.rs lines 189-208): every failure is converted into a
warning; the block itself never aborts. -/
def minerConfigStage (addrR : Except (List Char) (List Char))
    (patchR : List Char → Except (List Char) Unit)
    (restartR : Except (List Char) Unit) : List (List Char) :=
  match addrR with
  | .ok t_address =>
    match patchR t_address with
    | .error e => [warnPatch e]
    | .ok _ =>
      match restartR with
      | .error e => [warnRestart e]
      | .ok _ => []
  | .error e => [warnAddr e]

/-- The bootstrap tail from address discovery through the mining-maturity
wait (up.rs lines 189-211): the config stage yields warnings only, and
the result of `wait_for_mined_blocks` for target height 101 is
propagated (the `?` operator). -/
def bootstrapMiningPhase (addrR : Except (List Char) (List Char))
    (patchR : List Char → Except (List Char) Unit)
    (restartR : Except (List Char) Unit)
    (heights : Nat → Option Nat) (fuel : Nat) :
    Except (List Char) (List (List Char) × Nat) :=
  let warnings := minerConfigStage addrR patchR restartR
  match wait_for_mined_blocks heights 101 fuel 0 with
  | .ok h => .ok (warnings, h)
  | .error e => .error e

/-! ## Bounded poller (`HealthChecker::wait_for_zebra`, docker/health.rs)

`probe i` is the outcome of the i-th single-shot probe. -/

/-- Error value of the dead-code fallthrough after the retry loop
(reachable only with a zero retry budget). -/
def zebraNotReadyMsg : List Char := "Zebra".data

/-- The retry loop of `wait_for_zebra`: return on the first successful
probe; on the last allowed attempt return that probe's error. -/
def wait_for_zebra_go (probe : Nat → Except (List Char) Unit)
    (maxRetries i : Nat) : Except (List Char) Unit :=
  if h : i < maxRetries then
    match probe i with
    | .ok _ => .ok ()
    | .error e =>
      if i < maxRetries - 1 then wait_for_zebra_go probe maxRetries (i + 1)
      else .error e
  else .error zebraNotReadyMsg
termination_by maxRetries - i
decreasing_by omega

/-- Model of `wait_for_zebra`, starting at attempt 0. -/
def wait_for_zebra (probe : Nat → Except (List Char) Unit)
    (maxRetries : Nat) : Except (List Char) Unit :=
  wait_for_zebra_go probe maxRetries 0

/-! ## Backend detection (`detect_backend`, cli/src/commands/test.rs)

The two inputs are the captured stdout of the two `docker ps` name-filter
queries the function runs. -/

/-- Name pattern of the zaino backend container. -/
def zainoName : List Char := "zeckit-zaino".data

/-- Name pattern of the lightwalletd backend container. -/
def lwdName : List Char := "zeckit-lightwalletd".data

/-- Endpoint returned for the zaino backend. -/
def zainoUri : List Char := "http://zaino:9067".data

/-- Endpoint returned for the lightwalletd backend. -/
def lwdUri : List Char := "http://lightwalletd:9067".data

/-- Error message when neither backend container is found. -/
def noBackendMsg : List Char :=
  "No backend detected (neither zaino nor lightwalletd running)".data

/-- Model of `detect_backend`: zaino is checked first, lightwalletd
second, otherwise a fatal error. -/
def detect_backend (zainoOut lwdOut : List Char) :
    Except (List Char) (List Char) :=
  if containsCL zainoOut zainoName then .ok zainoUri
  else if containsCL lwdOut lwdName then .ok lwdUri
  else .error noBackendMsg

/-! ## Transparent-address extraction (`get_wallet_transparent_address`, up.rs) -/

/-- The quoted field marker the scan requires on a line. -/
def encodedAddrMarker : List Char := "\"encoded_address\"".data

/-- The transparent-address prefix on regtest. -/
def tmPat : List Char := "tm".data

/-- Error returned when no line yields a valid address. -/
def noTAddrMsg : List Char :=
  "Could not find transparent address in wallet output".data

/-- Index of the first occurrence of `pat` in a string (Rust `str::find`). -/
def findSubIdx (pat : List Char) : List Char → Option Nat
  | [] => if startsWithCL [] pat then some 0 else none
  | c :: rest =>
    if startsWithCL (c :: rest) pat then some 0
    else (findSubIdx pat rest).map (· + 1)

/-- The delimiter class ending an address token: quote, newline, space. -/
def isTAddrDelim (c : Char) : Bool := c = '"' || c = '\n' || c = ' '

/-- The candidate token of a line: from offset `start` up to the next
delimiter (Rust `&addr_part[..end]` with `end` the first delimiter
position, or the whole remainder when no delimiter occurs). -/
def tAddrCandidate (line : List Char) (start : Nat) : List Char :=
  (line.drop start).takeWhile (fun c => !isTAddrDelim c)

/-- One line of the transparent-address scan: the line must contain the
quoted field marker and the prefix; the candidate runs from the first
prefix match to the next delimiter and is accepted only with the correct
prefix and length greater than 30. -/
def extractTAddrLine (line : List Char) : Option (List Char) :=
  if containsCL line encodedAddrMarker && containsCL line tmPat then
    match findSubIdx tmPat line with
    | some start =>
      if startsWithCL (tAddrCandidate line start) tmPat
          && 30 < (tAddrCandidate line start).length then
        some (tAddrCandidate line start)
      else none
    | none => none
  else none

/-- Model of `get_wallet_transparent_address`: first line yielding a
valid candidate wins; otherwise a not-found error. -/
def get_wallet_transparent_address (text : List Char) :
    Except (List Char) (List Char) :=
  match (rustLines text).findSome? extractTAddrLine with
  | some a => .ok a
  | none => .error noTAddrMsg

/-! ## Transaction-id and unified-address extraction (test.rs) -/

/-- The first-pair-of-quotes extraction the code applies to a line:
`line.find(quote)` then the text up to the next quote; `none` when the
line has no complete quote pair. -/
def firstQuoteSplit (line : List Char) : Option (List Char) :=
  match line.dropWhile (fun c => c != '"') with
  | [] => none
  | _ :: rest =>
    let part := rest.takeWhile (fun c => c != '"')
    if part.length = rest.length then none else some part

/-- The transaction-id marker. -/
def txidMarker : List Char := "txid".data

/-- One line of the txid scan: marker present, then the first quote pair
of the whole line (counted from the start of the line). -/
def extractTxidLine (line : List Char) : Option (List Char) :=
  if containsCL line txidMarker then firstQuoteSplit line else none

/-- Fallback txid of `autoshield_funds`. -/
def shieldPh : List Char := "shield-txid-placeholder".data

/-- Fallback txid of `shielded_send`. -/
def sendPh : List Char := "send-txid-placeholder".data

/-- Model of `autoshield_funds` on the captured process outcome. -/
def autoshield_funds (statusSuccess : Bool) (stdout stderr : List Char) :
    Except (List Char) (List Char) :=
  if statusSuccess && containsCL stdout txidMarker then
    match (rustLines stdout).findSome? extractTxidLine with
    | some t => .ok t
    | none => .ok shieldPh
  else .error ("Autoshield failed: ".data ++ stderr)

/-- Model of `shielded_send` on the captured process outcome. -/
def shielded_send (statusSuccess : Bool) (stdout stderr : List Char) :
    Except (List Char) (List Char) :=
  if statusSuccess && containsCL stdout txidMarker then
    match (rustLines stdout).findSome? extractTxidLine with
    | some t => .ok t
    | none => .ok sendPh
  else .error ("Shielded send failed: ".data ++ stderr)

/-- The unified-address marker. -/
def uaMarker : List Char := "unifiedaddress".data

/-- The literal placeholder `generate_unified_address` falls back to. -/
def uaPlaceholder : List Char := "ua-placeholder".data

/-- One line of the unified-address scan. -/
def extractUALine (line : List Char) : Option (List Char) :=
  if containsCL line uaMarker then firstQuoteSplit line else none

/-- Model of `generate_unified_address`: on success the scan's result or
the placeholder; on failure an error carrying stderr. -/
def generate_unified_address (statusSuccess : Bool) (stdout stderr : List Char) :
    Except (List Char) (List Char) :=
  if statusSuccess then
    match (rustLines stdout).findSome? extractUALine with
    | some ua => .ok ua
    | none => .ok uaPlaceholder
  else .error ("Generate UA failed: ".data ++ stderr)

/-! ## Generic lemmas about the text primitives -/

theorem sw_append_self (l t : List Char) : startsWithCL (l ++ t) l = true := by
  induction l with
  | nil => cases t <;> rfl
  | cons c s ih => simp [startsWithCL, ih]

theorem sw_iff_exists {s p : List Char} :
    startsWithCL s p = true ↔ ∃ t, s = p ++ t := by
  constructor
  · intro h
    induction p generalizing s with
    | nil => exact ⟨s, rfl⟩
    | cons d q ih =>
      cases s with
      | nil => simp [startsWithCL] at h
      | cons c s' =>
        simp only [startsWithCL, Bool.and_eq_true, decide_eq_true_eq] at h
        obtain ⟨t, ht⟩ := ih h.2
        exact ⟨t, by simp [h.1, ht]⟩
  · rintro ⟨t, rfl⟩
    exact sw_append_self p t

theorem sw_of_sw_append {s a b : List Char}
    (h : startsWithCL s (a ++ b) = true) : startsWithCL s a = true := by
  obtain ⟨t, rfl⟩ := sw_iff_exists.mp h
  rw [List.append_assoc]
  exact sw_append_self a (b ++ t)

theorem contains_of_sw {s p : List Char} (h : startsWithCL s p = true) :
    containsCL s p = true := by
  cases s with
  | nil => simpa [containsCL] using h
  | cons c s' => simp [containsCL, h]

theorem contains_cons_of {s p : List Char} (c : Char)
    (h : containsCL s p = true) : containsCL (c :: s) p = true := by
  simp [containsCL, h]

theorem contains_append_left {t p : List Char} (x : List Char)
    (h : containsCL t p = true) : containsCL (x ++ t) p = true := by
  induction x with
  | nil => simpa using h
  | cons c s ih => exact contains_cons_of c ih

theorem contains_tail_of_not {c : Char} {s p : List Char}
    (h : containsCL (c :: s) p = false) : containsCL s p = false := by
  by_contra hc
  simp only [Bool.not_eq_false] at hc
  simp [contains_cons_of c hc] at h

theorem sw_not_of_contains_not {s p : List Char}
    (h : containsCL s p = false) : startsWithCL s p = false := by
  by_contra hc
  simp only [Bool.not_eq_false] at hc
  simp [contains_of_sw hc] at h

theorem takeWhile_append_of_all {q : Char → Bool} {a : List Char}
    (b : List Char) (h : ∀ c ∈ a, q c = true) :
    (a ++ b).takeWhile q = a ++ b.takeWhile q := by
  induction a with
  | nil => simp
  | cons c s ih =>
    have hc : q c = true := h c (by simp)
    simp [List.takeWhile, hc]
    exact ih fun d hd => h d (by simp [hd])

theorem takeWhile_cons_false {q : Char → Bool} {c : Char}
    (b : List Char) (h : q c = false) : (c :: b).takeWhile q = [] := by
  simp [List.takeWhile, h]

theorem dropWhile_append_of_all {q : Char → Bool} {a : List Char}
    (b : List Char) (h : ∀ c ∈ a, q c = true) :
    (a ++ b).dropWhile q = b.dropWhile q := by
  induction a with
  | nil => simp
  | cons c s ih =>
    have hc : q c = true := h c (by simp)
    simp [List.dropWhile, hc]
    exact ih fun d hd => h d (by simp [hd])

theorem dropWhile_head_false {q : Char → Bool} {l : List Char} {c : Char}
    {r : List Char} (h : l.dropWhile q = c :: r) : q c = false := by
  induction l with
  | nil => simp [List.dropWhile] at h
  | cons d s ih =>
    rw [List.dropWhile_cons] at h
    cases hq : q d with
    | true => rw [if_pos hq] at h; exact ih h
    | false =>
      rw [if_neg (by simp [hq])] at h
      injection h with h1 h2
      rw [← h1]
      exact hq

theorem sw_append_of_le {w x p : List Char} (h : p.length ≤ w.length) :
    startsWithCL (w ++ x) p = startsWithCL w p := by
  induction p generalizing w with
  | nil => cases w <;> cases x <;> rfl
  | cons d q ih =>
    cases w with
    | nil => simp at h
    | cons c s =>
      simp only [List.cons_append, startsWithCL, List.append_eq]
      rw [ih (by simpa using h)]

theorem sw_split_of_lt {x y p : List Char}
    (h : startsWithCL (x ++ y) p = true) (hlt : x.length ≤ p.length) :
    x = p.take x.length ∧ startsWithCL y (p.drop x.length) = true := by
  induction x generalizing p with
  | nil => simpa using h
  | cons c s ih =>
    cases p with
    | nil => simp at hlt
    | cons d q =>
      simp only [List.cons_append, startsWithCL, Bool.and_eq_true,
        decide_eq_true_eq] at h
      obtain ⟨h1, h2⟩ := h
      obtain ⟨ha, hb⟩ := ih h2 (by simpa using hlt)
      constructor
      · simp [List.take, h1, ← ha]
      · simpa [List.drop] using hb

/-! ## Generic lemmas about membership in derived strings -/

theorem mem_consHead {c : Char} {parts : List (List Char)} {l : List Char}
    (h : l ∈ consHead c parts) : ∀ d ∈ l, d = c ∨ ∃ l' ∈ parts, d ∈ l' := by
  intro d hd
  cases parts with
  | nil =>
    simp [consHead] at h
    subst h
    simp at hd
    exact Or.inl hd
  | cons h0 t =>
    simp [consHead] at h
    rcases h with h | h
    · subst h
      rcases List.mem_cons.mp hd with h | h
      · exact Or.inl h
      · exact Or.inr ⟨h0, by simp, h⟩
    · exact Or.inr ⟨l, by simp [h], hd⟩

theorem mem_splitOnCharCL {sep : Char} {s : List Char} {l : List Char}
    (h : l ∈ splitOnCharCL sep s) : ∀ c ∈ l, c ∈ s := by
  induction s generalizing l with
  | nil =>
    simp [splitOnCharCL] at h
    subst h
    simp
  | cons c0 rest ih =>
    intro c hc
    by_cases hsep : c0 = sep
    · simp [splitOnCharCL, hsep] at h
      rcases h with h | h
      · subst h; simp at hc
      · exact List.mem_cons_of_mem _ (ih h c hc)
    · simp only [splitOnCharCL, if_neg hsep] at h
      rcases mem_consHead h c hc with h1 | ⟨l', hl', hcl'⟩
      · simp [h1]
      · exact List.mem_cons_of_mem _ (ih hl' c hcl')

theorem mem_dropLast {c : Char} {l : List Char} (h : c ∈ l.dropLast) : c ∈ l :=
  List.dropLast_subset l h

theorem mem_stripCR {c : Char} {l : List Char} (h : c ∈ stripCR l) : c ∈ l := by
  rcases hl : l.getLast? with _ | d <;> simp only [stripCR, hl] at h
  · exact h
  · by_cases hd : d = '\r'
    · rw [if_pos hd] at h
      exact mem_dropLast h
    · rwa [if_neg hd] at h

theorem mem_rustLines {s : List Char} {l : List Char}
    (h : l ∈ rustLines s) : ∀ c ∈ l, c ∈ s := by
  intro c hc
  unfold rustLines at h
  simp only [List.mem_map] at h
  obtain ⟨l', hl', rfl⟩ := h
  have hc' : c ∈ l' := mem_stripCR hc
  have hmem : l' ∈ splitOnCharCL '\n' s := by
    rcases hlast : (splitOnCharCL '\n' s).getLast? with _ | last
    · rw [hlast] at hl'; exact hl'
    · rw [hlast] at hl'
      cases last with
      | nil => exact List.dropLast_subset _ hl'
      | cons a b => exact hl'
  have := mem_splitOnCharCL hmem c hc'
  exact this

theorem mem_trimCL {c : Char} {s : List Char} (h : c ∈ trimCL s) : c ∈ s := by
  unfold trimCL at h
  rw [List.mem_reverse] at h
  have h1 := List.dropWhile_subset (p := Char.isWhitespace) h
  rw [List.mem_reverse] at h1
  exact List.dropWhile_subset _ h1

/-! ## Lemmas about integer parsing -/

theorem parseI64_nonneg {s : List Char} {n : Int}
    (hp : parseI64 s = some n) (hm : ∀ c ∈ s, ¬ c = '-') : 0 ≤ n := by
  cases s with
  | nil => simp [parseI64] at hp
  | cons c s' =>
    have hc : ¬ c = '-' := hm c (by simp)
    simp only [parseI64] at hp
    by_cases hplus : c = '+'
    · rw [if_pos hplus] at hp
      obtain ⟨m, _, rfl⟩ := Option.map_eq_some'.mp hp
      exact Int.ofNat_nonneg m
    · rw [if_neg hplus, if_neg hc] at hp
      obtain ⟨m, _, rfl⟩ := Option.map_eq_some'.mp hp
      exact Int.ofNat_nonneg m

/-! ## Helper lemmas for the bootstrap mining phase -/

theorem wait_blocks_timeout (heights : Nat → Option Nat)
    (hlow : ∀ i h, heights i = some h → h < 101) :
    ∀ fuel i, wait_for_mined_blocks heights 101 fuel i = .error minerTimeoutMsg := by
  intro fuel
  induction fuel with
  | zero => intro i; rfl
  | succ n ih =>
    intro i
    simp only [wait_for_mined_blocks]
    rcases hh : heights i with _ | h
    · exact ih (i + 1)
    · show (if 101 ≤ h then Except.ok h
        else wait_for_mined_blocks heights 101 n (i + 1)) = Except.error minerTimeoutMsg
      rw [if_neg (by have := hlow i h hh; omega)]
      exact ih (i + 1)

/-- Claim C3: in the bootstrap sequence, failures of wallet-address
discovery, of the config patch, and of the node restart are non-fatal
(a warning is recorded and the run proceeds to the mining-maturity wait
and succeeds when mining reaches the target), while a mining-maturity
timeout (height 101 never reached within the poll budget) aborts the
sequence with an error. -/
theorem claim3_fatality_policy :
    ∀ (patchR : List Char → Except (List Char) Unit)
      (restartR : Except (List Char) Unit)
      (heights : Nat → Option Nat) (fuel : Nat),
    (∀ e h, wait_for_mined_blocks heights 101 fuel 0 = .ok h →
       bootstrapMiningPhase (.error e) patchR restartR heights fuel
         = .ok ([warnAddr e], h))
    ∧ (∀ a e h, patchR a = .error e →
       wait_for_mined_blocks heights 101 fuel 0 = .ok h →
       bootstrapMiningPhase (.ok a) patchR restartR heights fuel
         = .ok ([warnPatch e], h))
    ∧ (∀ a e h, patchR a = .ok () → restartR = .error e →
       wait_for_mined_blocks heights 101 fuel 0 = .ok h →
       bootstrapMiningPhase (.ok a) patchR restartR heights fuel
         = .ok ([warnRestart e], h))
    ∧ (∀ addrR, (∀ i h, heights i = some h → h < 101) →
       bootstrapMiningPhase addrR patchR restartR heights fuel
         = .error minerTimeoutMsg) := by
  intro patchR restartR heights fuel
  refine ⟨?_, ?_, ?_, ?_⟩
  · intro e h hw
    simp [bootstrapMiningPhase, minerConfigStage, hw]
  · intro a e h hp hw
    simp [bootstrapMiningPhase, minerConfigStage, hp, hw]
  · intro a e h hp hr hw
    simp [bootstrapMiningPhase, minerConfigStage, hp, hr, hw]
  · intro addrR hlow
    simp [bootstrapMiningPhase, wait_blocks_timeout heights hlow fuel 0]

/-- Witness for C3: a failed address discovery still ends in success when
mining reaches height 101 at the first poll, and a chain stuck at height
50 ends in the timeout error. -/
theorem claim3_witness :
    bootstrapMiningPhase (.error "no address".data)
        (fun _ => .ok ()) (.ok ()) (fun _ => some 101) 1
      = .ok ([warnAddr "no address".data], 101)
    ∧ bootstrapMiningPhase (.ok "tmX".data) (fun _ => .ok ()) (.ok ())
        (fun _ => some 50) 3 = .error minerTimeoutMsg := by
  constructor
  · exact (claim3_fatality_policy (fun _ => .ok ()) (.ok ())
      (fun _ => some 101) 1).1 "no address".data 101 (by decide)
  · exact (claim3_fatality_policy (fun _ => .ok ()) (.ok ())
      (fun _ => some 50) 3).2.2.2 (.ok "tmX".data)
      (fun i h hh => by injection hh with hh; omega)

/-! ## Helper lemmas for the bounded poller -/

theorem wzgo_ok (probe : Nat → Except (List Char) Unit) (maxR : Nat) :
    ∀ n i k, maxR - i = n → i ≤ k → k < maxR →
    (∀ j, i ≤ j → j < k → ∃ e, probe j = .error e) →
    probe k = .ok () → wait_for_zebra_go probe maxR i = .ok () := by
  intro n
  induction n with
  | zero => intro i k hn hik hk _ _; omega
  | succ m ih =>
    intro i k hn hik hk hfail hok
    have hi : i < maxR := by omega
    unfold wait_for_zebra_go
    rw [dif_pos hi]
    by_cases hik2 : i = k
    · subst hik2
      rw [hok]
    · obtain ⟨e, he⟩ := hfail i (le_refl i) (by omega)
      rw [he]
      have hlast : i < maxR - 1 := by omega
      show (if i < maxR - 1 then wait_for_zebra_go probe maxR (i + 1)
        else Except.error e) = Except.ok ()
      rw [if_pos hlast]
      exact ih (i + 1) k (by omega) (by omega) hk
        (fun j hj1 hj2 => hfail j (by omega) hj2) hok

theorem wzgo_err (probe : Nat → Except (List Char) Unit) (maxR : Nat) :
    ∀ n i, maxR - i = n →
    (∀ j, i ≤ j → j < maxR → ∃ e, probe j = .error e) →
    ∃ e, wait_for_zebra_go probe maxR i = .error e := by
  intro n
  induction n with
  | zero =>
    intro i hn hfail
    refine ⟨zebraNotReadyMsg, ?_⟩
    unfold wait_for_zebra_go
    rw [dif_neg (by omega)]
  | succ m ih =>
    intro i hn hfail
    have hi : i < maxR := by omega
    obtain ⟨e, he⟩ := hfail i (le_refl i) hi
    by_cases hlast : i < maxR - 1
    · obtain ⟨e2, he2⟩ := ih (i + 1) (by omega)
        (fun j h1 h2 => hfail j (by omega) h2)
      refine ⟨e2, ?_⟩
      unfold wait_for_zebra_go
      rw [dif_pos hi, he]
      show (if i < maxR - 1 then wait_for_zebra_go probe maxR (i + 1)
        else Except.error e) = Except.error e2
      rw [if_pos hlast]
      exact he2
    · refine ⟨e, ?_⟩
      unfold wait_for_zebra_go
      rw [dif_pos hi, he]
      show (if i < maxR - 1 then wait_for_zebra_go probe maxR (i + 1)
        else Except.error e) = Except.error e
      rw [if_neg hlast]

/-- Claim C4: the bounded polling loop of `wait_for_zebra` returns
success at the first attempt whose probe succeeds (in particular
immediately when the very first probe succeeds), and when every probe in
the attempt budget fails it terminates with an error after at most
`maxRetries` attempts — it never loops forever (the model is a total
function). -/
theorem claim4_bounded_poller :
    ∀ (probe : Nat → Except (List Char) Unit) (maxRetries : Nat),
    (∀ k, k < maxRetries → (∀ j, j < k → ∃ e, probe j = .error e) →
       probe k = .ok () → wait_for_zebra probe maxRetries = .ok ())
    ∧ ((∀ j, j < maxRetries → ∃ e, probe j = .error e) →
       ∃ e, wait_for_zebra probe maxRetries = .error e) := by
  intro probe maxRetries
  constructor
  · intro k hk hfail hok
    exact wzgo_ok probe maxRetries (maxRetries - 0) 0 k rfl (by omega) hk
      (fun j hj1 hj2 => hfail j hj2) hok
  · intro hfail
    exact wzgo_err probe maxRetries (maxRetries - 0) 0 rfl
      (fun j hj1 hj2 => hfail j hj2)

/-- Witness for C4: an always-ready probe succeeds with the production
budget of 60 retries, and an always-failing probe yields an error. -/
theorem claim4_witness :
    wait_for_zebra (fun _ => .ok ()) 60 = .ok ()
    ∧ ∃ e, wait_for_zebra (fun _ => .error "connection refused".data) 3
        = .error e := by
  constructor
  · exact (claim4_bounded_poller (fun _ => .ok ()) 60).1 0 (by omega)
      (fun j hj => absurd hj (by omega)) rfl
  · exact (claim4_bounded_poller (fun _ => .error "connection refused".data) 3).2
      (fun j hj => ⟨"connection refused".data, rfl⟩)

/-- Counterexample for C5: the claim's scenario says a running container
named `devnet-zaino` suffices to select the zaino backend, but the code
matches the pattern `zeckit-zaino`, so that listing yields the fatal
no-backend error instead of the zaino endpoint. -/
theorem claim5_counterexample :
    detect_backend "devnet-zaino".data [] = .error noBackendMsg
    ∧ detect_backend "devnet-zaino".data [] ≠ .ok zainoUri := by
  constructor <;> decide

/-- Claim C5 (amended): a running-container listing matching
`zeckit-zaino` (not `devnet-zaino`) selects the zaino endpoint, with
priority over lightwalletd; otherwise a listing matching
`zeckit-lightwalletd` selects the lightwalletd endpoint; otherwise the
detection fails with the no-backend error. -/
theorem claim5_backend_detection :
    ∀ zainoOut lwdOut : List Char,
    (containsCL zainoOut zainoName = true →
       detect_backend zainoOut lwdOut = .ok zainoUri)
    ∧ (containsCL zainoOut zainoName = false →
        containsCL lwdOut lwdName = true →
        detect_backend zainoOut lwdOut = .ok lwdUri)
    ∧ (containsCL zainoOut zainoName = false →
        containsCL lwdOut lwdName = false →
        detect_backend zainoOut lwdOut = .error noBackendMsg) := by
  intro z l
  refine ⟨fun h => by simp [detect_backend, h],
    fun h1 h2 => by simp [detect_backend, h1, h2],
    fun h1 h2 => by simp [detect_backend, h1, h2]⟩

/-- Witness for C5: both-match priority goes to zaino, and
lightwalletd-only listings select lightwalletd. -/
theorem claim5_witness :
    detect_backend "zeckit-zaino".data "zeckit-lightwalletd".data = .ok zainoUri
    ∧ detect_backend [] "zeckit-lightwalletd".data = .ok lwdUri := by
  constructor
  · exact (claim5_backend_detection "zeckit-zaino".data
      "zeckit-lightwalletd".data).1 (by decide)
  · exact (claim5_backend_detection [] "zeckit-lightwalletd".data).2.1
      (by decide) (by decide)

/-! ## Helper lemma: findSome? over a scan that yields nothing -/

theorem findSome?_none_of_all {α β : Type} {f : α → Option β} {l : List α}
    (h : ∀ a ∈ l, f a = none) : l.findSome? f = none := by
  induction l with
  | nil => rfl
  | cons a t ih =>
    rw [List.findSome?_cons, h a (by simp)]
    exact ih fun a ha => h a (by simp [ha])

/-- Claim C10: when the address-generation command exits successfully
but its output has no line with the `unifiedaddress` marker (or no
quoted value after one), golden-mode stage 1 still succeeds and returns
the literal placeholder `ua-placeholder`; the stage errors exactly when
the command reports a non-success exit status. -/
theorem claim10_ua_placeholder :
    ∀ stdout stderr : List Char,
    ((∀ l ∈ rustLines stdout, containsCL l uaMarker = false) →
       generate_unified_address true stdout stderr = .ok uaPlaceholder)
    ∧ generate_unified_address true "unifiedaddress with no quoted value".data
        stderr = .ok uaPlaceholder
    ∧ generate_unified_address false stdout stderr
        = .error ("Generate UA failed: ".data ++ stderr) := by
  intro stdout stderr
  refine ⟨?_, ?_, by simp [generate_unified_address]⟩
  · intro h
    have hn : (rustLines stdout).findSome? extractUALine = none :=
      findSome?_none_of_all fun l hl => by simp [extractUALine, h l hl]
    simp [generate_unified_address, hn]
  · have hn : (rustLines "unifiedaddress with no quoted value".data).findSome?
        extractUALine = none := by decide
    simp [generate_unified_address, hn]

/-- Witness for C10: marker-free successful output yields the
placeholder. -/
theorem claim10_witness :
    generate_unified_address true "Error: no address generated".data []
      = .ok uaPlaceholder :=
  (claim10_ua_placeholder "Error: no address generated".data []).1 (by decide)

/-- Counterexample for C8: on the JSON-style line `"txid": "deadbeef"`
the code extracts the text between the first pair of quotes of the whole
line, which is the marker `txid` itself, not the quoted transaction-id
value following the marker. -/
theorem claim8_counterexample :
    autoshield_funds true "\"txid\": \"deadbeef\"".data [] = .ok "txid".data
    ∧ "txid".data ≠ "deadbeef".data := by
  constructor <;> decide

/-- Claim C8 (amended): for a line containing the `txid` marker, the
extraction returns the substring between the first pair of quote
characters of the line counted from the start of the line — which is the
quoted transaction id only when no quoted token (such as a JSON-quoted
marker) precedes it. -/
theorem claim8_first_quotes :
    ∀ u v w : List Char,
    (∀ c ∈ u, ¬ c = '"') → (∀ c ∈ v, ¬ c = '"') →
    containsCL (u ++ ('"' :: (v ++ ('"' :: w)))) txidMarker = true →
    extractTxidLine (u ++ ('"' :: (v ++ ('"' :: w)))) = some v := by
  intro u v w hu hv hm
  unfold extractTxidLine
  rw [hm]
  show firstQuoteSplit (u ++ ('"' :: (v ++ ('"' :: w)))) = some v
  unfold firstQuoteSplit
  have hdu : (u ++ ('"' :: (v ++ ('"' :: w)))).dropWhile (fun c => c != '"')
      = '"' :: (v ++ ('"' :: w)) := by
    rw [dropWhile_append_of_all _ (fun c hc => by simp [hu c hc])]
    simp [List.dropWhile]
  rw [hdu]
  have htv : (v ++ ('"' :: w)).takeWhile (fun c => c != '"') = v := by
    rw [takeWhile_append_of_all _ (fun c hc => by simp [hv c hc])]
    simp [List.takeWhile]
  simp only [htv]
  rw [if_neg (by simp)]

/-- Witness for C8: with the marker unquoted before the first quote, the
extraction does return the quoted transaction id. -/
theorem claim8_witness :
    extractTxidLine "txid: \"deadbeef\"".data = some "deadbeef".data := by
  have h := claim8_first_quotes "txid: ".data "deadbeef".data []
    (by decide) (by decide) (by decide)
  simpa using h

/-! ## Helper lemma: soundness of the transparent-address line scan -/

theorem extractTAddr_sound {line a : List Char}
    (h : extractTAddrLine line = some a) :
    startsWithCL a tmPat = true ∧ 30 < a.length := by
  unfold extractTAddrLine at h
  split at h
  · split at h
    · split at h
      · rename_i hacc
        injection h with h'
        subst h'
        simp only [Bool.and_eq_true, decide_eq_true_eq] at hacc
        exact hacc
      · exact absurd h (by simp)
    · exact absurd h (by simp)
  · exact absurd h (by simp)

/-- Claim C6: transparent-address extraction accepts a candidate token
only with the correct `tm` prefix and length above 30; an under-length
token is rejected and scanning continues with the remaining lines; and
when no line yields a valid candidate the extraction fails with the
not-found error instead of returning a malformed address. -/
theorem claim6_address_validation :
    (∀ text a, get_wallet_transparent_address text = .ok a →
       startsWithCL a tmPat = true ∧ 30 < a.length)
    ∧ get_wallet_transparent_address
        ("\"encoded_address\": \"tmSHORT\"\n\"encoded_address\": \"tmAAAAABBBBBCCCCCDDDDDEEEEEFFFFF\"".data)
        = .ok "tmAAAAABBBBBCCCCCDDDDDEEEEEFFFFF".data
    ∧ get_wallet_transparent_address "\"encoded_address\": \"tmSHORT\"".data
        = .error noTAddrMsg := by
  refine ⟨?_, by decide, by decide⟩
  intro text a h
  unfold get_wallet_transparent_address at h
  rcases hf : (rustLines text).findSome? extractTAddrLine with _ | b <;>
    rw [hf] at h
  · simp at h
  · injection h with h
    subst h
    obtain ⟨l, _, hl⟩ := List.exists_of_findSome?_eq_some hf
    exact extractTAddr_sound hl

/-- Witness for C6: the accepted address of a valid console line has the
`tm` prefix and length above 30. -/
theorem claim6_witness :
    startsWithCL "tmAAAAABBBBBCCCCCDDDDDEEEEEFFFFF".data tmPat = true
    ∧ 30 < "tmAAAAABBBBBCCCCCDDDDDEEEEEFFFFF".data.length :=
  claim6_address_validation.1
    "\"encoded_address\": \"tmAAAAABBBBBCCCCCDDDDDEEEEEFFFFF\"".data
    "tmAAAAABBBBBCCCCCDDDDDEEEEEFFFFF".data (by decide)

/-! ## Helper lemmas for balance extraction -/

theorem foldl_balStep_fst {lines : List (List Char)} {acc : ℚ × ℚ}
    (h : ∀ l ∈ lines, containsCL l tFieldName = false) :
    (lines.foldl balStep acc).1 = acc.1 := by
  induction lines generalizing acc with
  | nil => rfl
  | cons l t ih =>
    rw [List.foldl_cons, ih (fun l' hl' => h l' (by simp [hl']))]
    simp [balStep, balanceLineValue, h l (by simp)]

theorem foldl_balStep_snd {lines : List (List Char)} {acc : ℚ × ℚ}
    (h : ∀ l ∈ lines, containsCL l oFieldName = false) :
    (lines.foldl balStep acc).2 = acc.2 := by
  induction lines generalizing acc with
  | nil => rfl
  | cons l t ih =>
    rw [List.foldl_cons, ih (fun l' hl' => h l' (by simp [hl']))]
    simp [balStep, balanceLineValue, h l (by simp)]

/-- Claim C1: balance extraction scans lines for each field name, splits
on the colon, strips grouping punctuation, parses the integer micro-unit
amount and divides by 10^8: the scenario line yields a transparent
balance of 3/2 (= 1.5); a text with no occurrence of a field name yields
0 for that field without error; and a non-parseable numeric literal
leaves its field at zero while the other field is still extracted. -/
theorem claim1_balance_extraction :
    get_wallet_balance "\"confirmed_transparent_balance\": 150_000_000".data
      = (3 / 2, 0)
    ∧ (∀ text, (∀ l ∈ rustLines text, containsCL l tFieldName = false) →
        (get_wallet_balance text).1 = 0)
    ∧ (∀ text, (∀ l ∈ rustLines text, containsCL l oFieldName = false) →
        (get_wallet_balance text).2 = 0)
    ∧ get_wallet_balance
        "\"confirmed_transparent_balance\": abc\n\"confirmed_orchard_balance\": 100_000_000".data
      = (0, 1) := by
  refine ⟨?_, ?_, ?_, ?_⟩
  · have h1 : rustLines "\"confirmed_transparent_balance\": 150_000_000".data
        = ["\"confirmed_transparent_balance\": 150_000_000".data] := by decide
    have h2 : balanceLineValue tFieldName
        "\"confirmed_transparent_balance\": 150_000_000".data
        = some 150000000 := by decide
    have h3 : balanceLineValue oFieldName
        "\"confirmed_transparent_balance\": 150_000_000".data = none := by decide
    simp [get_wallet_balance, h1, balStep, h2, h3]
    norm_num
  · intro text h
    exact foldl_balStep_fst h
  · intro text h
    exact foldl_balStep_snd h
  · have h1 : rustLines
        "\"confirmed_transparent_balance\": abc\n\"confirmed_orchard_balance\": 100_000_000".data
        = ["\"confirmed_transparent_balance\": abc".data,
           "\"confirmed_orchard_balance\": 100_000_000".data] := by decide
    have h2 : balanceLineValue tFieldName "\"confirmed_transparent_balance\": abc".data
        = none := by decide
    have h3 : balanceLineValue oFieldName "\"confirmed_transparent_balance\": abc".data
        = none := by decide
    have h4 : balanceLineValue tFieldName
        "\"confirmed_orchard_balance\": 100_000_000".data = none := by decide
    have h5 : balanceLineValue oFieldName
        "\"confirmed_orchard_balance\": 100_000_000".data = some 100000000 := by
      decide
    simp [get_wallet_balance, h1, balStep, h2, h3, h4, h5]

/-- Witness for C1: a text that never mentions either balance field
parses to the zero pair. -/
theorem claim1_witness :
    (get_wallet_balance "no balances here".data).1 = 0
    ∧ (get_wallet_balance "no balances here".data).2 = 0 :=
  ⟨claim1_balance_extraction.2.1 "no balances here".data (by decide),
   claim1_balance_extraction.2.2.1 "no balances here".data (by decide)⟩

/-! ## Helper lemmas for the sign of extracted balances -/

theorem balanceLineValue_nonneg {field line : List Char} {n : Int}
    (h : balanceLineValue field line = some n)
    (hm : ∀ c ∈ line, ¬ c = '-') : 0 ≤ n := by
  unfold balanceLineValue at h
  split at h
  · split at h
    · rename_i heq
      apply parseI64_nonneg h
      intro c hc
      have hc1 : c ∈ (trimCL _).filter (fun c => c != '_') :=
        (List.mem_filter.mp hc).1
      have hc2 := mem_trimCL ((List.mem_filter.mp hc1).1)
      rename_i val rest
      have hval : val ∈ splitOnCharCL ':' line := by
        rw [heq]
        simp
      exact hm c (mem_splitOnCharCL hval c hc2)
    · exact absurd h (by simp)
  · exact absurd h (by simp)

theorem foldl_balStep_nonneg {lines : List (List Char)} {acc : ℚ × ℚ}
    (hm : ∀ l ∈ lines, ∀ c ∈ l, ¬ c = '-')
    (h1 : 0 ≤ acc.1) (h2 : 0 ≤ acc.2) :
    0 ≤ (lines.foldl balStep acc).1 ∧ 0 ≤ (lines.foldl balStep acc).2 := by
  induction lines generalizing acc with
  | nil => exact ⟨h1, h2⟩
  | cons l t ih =>
    rw [List.foldl_cons]
    apply ih (fun l' hl' => hm l' (by simp [hl']))
    · show 0 ≤ (balStep acc l).1
      simp only [balStep]
      rcases hb : balanceLineValue tFieldName l with _ | n
      · exact h1
      · have hn := balanceLineValue_nonneg hb (hm l (by simp))
        exact div_nonneg (by exact_mod_cast hn) (by norm_num)
    · show 0 ≤ (balStep acc l).2
      simp only [balStep]
      rcases hb : balanceLineValue oFieldName l with _ | n
      · exact h2
      · have hn := balanceLineValue_nonneg hb (hm l (by simp))
        exact div_nonneg (by exact_mod_cast hn) (by norm_num)

/-- Counterexample for C9: the code parses the numeric literal as a
signed `i64`, so a console text carrying a negative literal produces a
negative transparent balance, refuting non-negativity for every input
text. -/
theorem claim9_counterexample :
    (get_wallet_balance "confirmed_transparent_balance: -100000000".data).1 < 0 := by
  have h1 : rustLines "confirmed_transparent_balance: -100000000".data
      = ["confirmed_transparent_balance: -100000000".data] := by decide
  have h2 : balanceLineValue tFieldName
      "confirmed_transparent_balance: -100000000".data = some (-100000000) := by
    decide
  have h3 : balanceLineValue oFieldName
      "confirmed_transparent_balance: -100000000".data = none := by decide
  simp [get_wallet_balance, h1, balStep, h2, h3]

/-- Claim C9 (amended): both components of the extracted balance pair
are non-negative for every input text containing no minus sign (the
parsed `i64` literals are then non-negative); an input with a negative
literal can produce a negative component. -/
theorem claim9_nonneg_wellformed :
    ∀ text : List Char, (∀ c ∈ text, ¬ c = '-') →
    0 ≤ (get_wallet_balance text).1 ∧ 0 ≤ (get_wallet_balance text).2 := by
  intro text hm
  exact foldl_balStep_nonneg
    (fun l hl c hc => hm c (mem_rustLines hl c hc)) (le_refl 0) (le_refl 0)

/-- Witness for C9: the scenario text has no minus sign and both
components are non-negative. -/
theorem claim9_witness :
    0 ≤ (get_wallet_balance "\"confirmed_transparent_balance\": 150_000_000".data).1
    ∧ 0 ≤ (get_wallet_balance "\"confirmed_transparent_balance\": 150_000_000".data).2 :=
  claim9_nonneg_wellformed "\"confirmed_transparent_balance\": 150_000_000".data
    (by decide)

/-! ## Helper lemmas for the config mutator

Throughout, `r0` is the tail of a well-formed address `'t' :: 'm' :: r0`
(nonempty and alphanumeric), so the code's replacement text is
`literalPart ++ (r0 ++ [quote])` and itself matches the regex. -/

theorem minerField_wf (rest : List Char) :
    minerField ('t' :: 'm' :: rest) = literalPart ++ (rest ++ ['"']) := by
  have h : literalPart = "miner_address = \"".data ++ ['t', 'm'] := by decide
  rw [h]
  show "miner_address = \"".data ++ ('t' :: 'm' :: rest) ++ ['"'] = _
  simp

theorem drop_lit_run (r t : List Char) :
    (literalPart ++ (r ++ ('"' :: t))).drop (literalPart.length + r.length + 1)
      = t := by
  have h : literalPart ++ (r ++ ('"' :: t)) = (literalPart ++ (r ++ ['"'])) ++ t := by
    simp
  have hlen : (literalPart ++ (r ++ ['"'])).length
      = literalPart.length + r.length + 1 := by
    simp only [List.length_append, List.length_cons, List.length_nil]
    omega
  rw [h, ← hlen, List.drop_left]

theorem take_one_eq {l : List Char} {c : Char} (h : l.take 1 = [c]) :
    l = c :: l.drop 1 := by
  cases l with
  | nil => simp at h
  | cons d l' =>
    simp [List.take] at h
    simp [h]

theorem drop_takeWhile_length (q : Char → Bool) (l : List Char) :
    l.drop (l.takeWhile q).length = l.dropWhile q := by
  induction l with
  | nil => rfl
  | cons c s ih =>
    rw [List.takeWhile_cons, List.dropWhile_cons]
    cases hq : q c with
    | true => simpa [hq] using ih
    | false => simp [hq]

theorem matchAfter_run {r : List Char} (hne : r ≠ [])
    (hal : ∀ c ∈ r, isAlnumAscii c = true) (t : List Char) :
    matchAfter (r ++ ('"' :: t)) = some (literalPart.length + r.length + 1) := by
  have htw : (r ++ ('"' :: t)).takeWhile isAlnumAscii = r := by
    rw [takeWhile_append_of_all _ hal, takeWhile_cons_false _ (by decide)]
    simp
  have hcond : ((r ++ ('"' :: t)).takeWhile isAlnumAscii).length ≠ 0
      ∧ ((r ++ ('"' :: t)).drop
          ((r ++ ('"' :: t)).takeWhile isAlnumAscii).length).take 1 = ['"'] := by
    rw [htw]
    refine ⟨by simpa [List.length_eq_zero] using hne, ?_⟩
    rw [List.drop_left]
    rfl
  unfold matchAfter
  rw [if_pos hcond, htw]

theorem matchAt_self {r : List Char} (hne : r ≠ [])
    (hal : ∀ c ∈ r, isAlnumAscii c = true) (t : List Char) :
    matchAt (literalPart ++ (r ++ ('"' :: t)))
      = some (literalPart.length + r.length + 1) := by
  unfold matchAt
  rw [if_pos (sw_append_self literalPart _), List.drop_left]
  exact matchAfter_run hne hal t

theorem matchAt_some_spec {s : List Char} {len : Nat}
    (h : matchAt s = some len) :
    ∃ r t, r ≠ [] ∧ (∀ c ∈ r, isAlnumAscii c = true)
      ∧ s = literalPart ++ (r ++ ('"' :: t))
      ∧ len = literalPart.length + r.length + 1 := by
  unfold matchAt at h
  split at h
  · rename_i hsw
    obtain ⟨x, rfl⟩ := sw_iff_exists.mp hsw
    rw [List.drop_left] at h
    unfold matchAfter at h
    split at h
    · rename_i hcond
      obtain ⟨hk, hq⟩ := hcond
      injection h with hlen
      refine ⟨x.takeWhile isAlnumAscii,
        (x.drop (x.takeWhile isAlnumAscii).length).drop 1, ?_, ?_, ?_, hlen.symm⟩
      · intro hnil
        rw [hnil] at hk
        simp at hk
      · intro c hc
        exact List.mem_takeWhile_imp hc
      · have h1 := take_one_eq hq
        have h2 : x = x.takeWhile isAlnumAscii
            ++ x.drop (x.takeWhile isAlnumAscii).length := by
          rw [drop_takeWhile_length]
          exact (List.takeWhile_append_dropWhile _ _).symm
        conv_lhs => rw [h2, h1]
    · exact absurd h (by simp)
  · exact absurd h (by simp)

theorem rfm_cons (repl : List Char) (c : Char) (s : List Char) :
    replaceFirstMiner repl (c :: s)
      = match matchAt (c :: s) with
        | some len => repl ++ (c :: s).drop len
        | none => c :: replaceFirstMiner repl s := rfl

theorem rfm_eq_of_matchAt_some {repl s : List Char} {len : Nat}
    (hs : s ≠ []) (h : matchAt s = some len) :
    replaceFirstMiner repl s = repl ++ s.drop len := by
  cases s with
  | nil => exact absurd rfl hs
  | cons c cs => rw [rfm_cons, h]

theorem rfm_eq_of_matchAt_none {repl : List Char} {c : Char} {s : List Char}
    (h : matchAt (c :: s) = none) :
    replaceFirstMiner repl (c :: s) = c :: replaceFirstMiner repl s := by
  rw [rfm_cons, h]

theorem rfm_self {r : List Char} (hne : r ≠ [])
    (hal : ∀ c ∈ r, isAlnumAscii c = true) (t : List Char) :
    replaceFirstMiner (literalPart ++ (r ++ ['"']))
        ((literalPart ++ (r ++ ['"'])) ++ t)
      = (literalPart ++ (r ++ ['"'])) ++ t := by
  have hassoc : (literalPart ++ (r ++ ['"'])) ++ t
      = literalPart ++ (r ++ ('"' :: t)) := by simp
  rw [hassoc]
  rw [rfm_eq_of_matchAt_some (by simp [literalPart]) (matchAt_self hne hal t)]
  rw [drop_lit_run]
  exact hassoc

theorem drop_append_of_le {w x : List Char} {n : Nat} (h : n ≤ w.length) :
    (w ++ x).drop n = w.drop n ++ x := by
  rw [List.drop_append_eq_append_drop, Nat.sub_eq_zero_of_le h, List.drop_zero]

theorem rfm_shape {r0 : List Char} (hne : r0 ≠ [])
    (hal : ∀ c ∈ r0, isAlnumAscii c = true) :
    ∀ s, replaceFirstMiner (literalPart ++ (r0 ++ ['"'])) s = s
      ∨ ∃ u r t, r ≠ [] ∧ (∀ c ∈ r, isAlnumAscii c = true)
        ∧ s = u ++ (literalPart ++ (r ++ ('"' :: t)))
        ∧ replaceFirstMiner (literalPart ++ (r0 ++ ['"'])) s
            = u ++ (literalPart ++ (r0 ++ ('"' :: t))) := by
  intro s
  induction s with
  | nil => left; rfl
  | cons c cs ih =>
    rcases hm : matchAt (c :: cs) with _ | len
    · rw [rfm_eq_of_matchAt_none hm]
      rcases ih with hid | ⟨u, r, t, hr1, hr2, hs, hres⟩
      · left
        rw [hid]
      · right
        refine ⟨c :: u, r, t, hr1, hr2, ?_, ?_⟩
        · rw [hs]
          rfl
        · rw [hres]
          rfl
    · right
      obtain ⟨r, t, hr1, hr2, hs, hlen⟩ := matchAt_some_spec hm
      refine ⟨[], r, t, hr1, hr2, by simpa using hs, ?_⟩
      rw [rfm_eq_of_matchAt_some (by simp) hm, hs, hlen, drop_lit_run]
      simp

theorem matchAfter_blocked_none {a : List Char} {e : Char} (d X : List Char)
    (ha : ∀ c ∈ a, isAlnumAscii c = true) (he : isAlnumAscii e = false)
    (hcase : a.length = 0 ∨ ¬ e = '"') :
    matchAfter ((a ++ (e :: d)) ++ X) = none := by
  have htw : ((a ++ (e :: d)) ++ X).takeWhile isAlnumAscii = a := by
    rw [List.append_assoc, List.cons_append,
      takeWhile_append_of_all _ ha, takeWhile_cons_false _ he]
    simp
  have hdrop : ((a ++ (e :: d)) ++ X).drop a.length = e :: (d ++ X) := by
    rw [List.append_assoc, List.cons_append, List.drop_left]
  unfold matchAfter
  rw [htw, hdrop]
  rw [if_neg]
  rcases hcase with h0 | hq
  · simp [h0]
  · simp [List.take, hq]

theorem matchAfter_blocked_some {a : List Char} {e : Char} (d X : List Char)
    (ha : ∀ c ∈ a, isAlnumAscii c = true) (he : isAlnumAscii e = false)
    (h0 : a.length ≠ 0) (hq : e = '"') :
    matchAfter ((a ++ (e :: d)) ++ X)
      = some (literalPart.length + a.length + 1) := by
  have htw : ((a ++ (e :: d)) ++ X).takeWhile isAlnumAscii = a := by
    rw [List.append_assoc, List.cons_append,
      takeWhile_append_of_all _ ha, takeWhile_cons_false _ he]
    simp
  have hdrop : ((a ++ (e :: d)) ++ X).drop a.length = e :: (d ++ X) := by
    rw [List.append_assoc, List.cons_append, List.drop_left]
  unfold matchAfter
  rw [htw, hdrop]
  rw [if_pos]
  exact ⟨h0, by simp [List.take, hq]⟩

theorem matchAt_run_swap {w : List Char} (hw : literalPart.length ≤ w.length)
    {r1 r2 t : List Char} (h1ne : r1 ≠ []) (h2ne : r2 ≠ [])
    (h1al : ∀ c ∈ r1, isAlnumAscii c = true)
    (h2al : ∀ c ∈ r2, isAlnumAscii c = true)
    (hnone : matchAt (w ++ (r1 ++ ('"' :: t))) = none) :
    matchAt (w ++ (r2 ++ ('"' :: t))) = none := by
  unfold matchAt at hnone ⊢
  rw [sw_append_of_le hw] at hnone ⊢
  by_cases hsw : startsWithCL w literalPart = true
  case neg => rw [if_neg hsw]
  case pos =>
    rw [if_pos hsw] at hnone ⊢
    rw [drop_append_of_le hw] at hnone ⊢
    rcases hdw : (w.drop literalPart.length).dropWhile isAlnumAscii with _ | ⟨e, d⟩
    · exfalso
      have hall : ∀ c ∈ w.drop literalPart.length, isAlnumAscii c = true := by
        rw [← List.dropWhile_eq_nil_iff]
        exact hdw
      have hsome : matchAfter (w.drop literalPart.length ++ (r1 ++ ('"' :: t)))
          = some (literalPart.length + (w.drop literalPart.length ++ r1).length + 1) := by
        rw [← List.append_assoc]
        refine matchAfter_run ?_ ?_ t
        · simp [h1ne]
        · intro c hc
          rcases List.mem_append.mp hc with h | h
          · exact hall c h
          · exact h1al c h
      rw [hsome] at hnone
      exact Option.noConfusion hnone
    · have he : isAlnumAscii e = false := dropWhile_head_false hdw
      have ha : ∀ c ∈ (w.drop literalPart.length).takeWhile isAlnumAscii,
          isAlnumAscii c = true := fun c hc => List.mem_takeWhile_imp hc
      have hsplit : w.drop literalPart.length
          = (w.drop literalPart.length).takeWhile isAlnumAscii ++ (e :: d) := by
        conv_lhs => rw [← List.takeWhile_append_dropWhile isAlnumAscii
          (w.drop literalPart.length)]
        rw [hdw]
      rw [hsplit] at hnone ⊢
      have hcase : ((w.drop literalPart.length).takeWhile isAlnumAscii).length = 0
          ∨ ¬ e = '"' := by
        by_contra hcon
        push_neg at hcon
        rw [matchAfter_blocked_some _ _ ha he hcon.1 hcon.2] at hnone
        exact Option.noConfusion hnone
      exact matchAfter_blocked_none _ _ ha he hcase

theorem rfm_idem {r0 : List Char} (hne : r0 ≠ [])
    (hal : ∀ c ∈ r0, isAlnumAscii c = true) :
    ∀ s, replaceFirstMiner (literalPart ++ (r0 ++ ['"']))
        (replaceFirstMiner (literalPart ++ (r0 ++ ['"'])) s)
      = replaceFirstMiner (literalPart ++ (r0 ++ ['"'])) s := by
  intro s
  induction s with
  | nil => rfl
  | cons c cs ih =>
    rcases hm : matchAt (c :: cs) with _ | len
    · rw [rfm_eq_of_matchAt_none hm]
      rcases rfm_shape hne hal cs with hid | ⟨u, r, t, hr1, hr2, hs, hres⟩
      · rw [hid, rfm_eq_of_matchAt_none hm, hid]
      · have hwl : literalPart.length ≤ ((c :: u) ++ literalPart).length := by
          simp only [List.length_append, List.length_cons]
          omega
        have hmm : matchAt
            (c :: replaceFirstMiner (literalPart ++ (r0 ++ ['"'])) cs) = none := by
          rw [hres]
          have hf2 : c :: (u ++ (literalPart ++ (r0 ++ ('"' :: t))))
              = ((c :: u) ++ literalPart) ++ (r0 ++ ('"' :: t)) := by simp
          rw [hf2]
          apply matchAt_run_swap hwl hr1 hne hr2 hal
          have hf1 : c :: cs = ((c :: u) ++ literalPart) ++ (r ++ ('"' :: t)) := by
            rw [hs]
            simp
          rw [← hf1]
          exact hm
        rw [rfm_eq_of_matchAt_none hmm, ih]
    · rw [rfm_eq_of_matchAt_some (by simp) hm]
      obtain ⟨r, t, hr1, hr2, hs, hlen⟩ := matchAt_some_spec hm
      rw [hs, hlen, drop_lit_run]
      exact rfm_self hne hal t

theorem sw_append_ext {s p : List Char} (t : List Char)
    (h : startsWithCL s p = true) : startsWithCL (s ++ t) p = true := by
  obtain ⟨u, rfl⟩ := sw_iff_exists.mp h
  rw [List.append_assoc]
  exact sw_append_self p (u ++ t)

theorem contains_append_of_left {x p : List Char} (t : List Char)
    (h : containsCL x p = true) : containsCL (x ++ t) p = true := by
  induction x with
  | nil =>
    have hp : p = [] := by
      cases p with
      | nil => rfl
      | cons d q => simp [containsCL, startsWithCL] at h
    subst hp
    cases t with
    | nil => rfl
    | cons c s => exact contains_of_sw rfl
  | cons c x' ih =>
    rw [List.cons_append]
    simp only [containsCL, Bool.or_eq_true] at h ⊢
    rcases h with h | h
    · left
      rw [← List.cons_append]
      exact sw_append_ext t h
    · right
      exact ih h

theorem sw_mining_shape {c : Char} {rest : List Char}
    (h : startsWithCL (c :: rest) miningPat = true) :
    c = '[' ∧ ∃ rest1, rest = 'm' :: 'i' :: 'n' :: 'i' :: 'n' :: 'g' :: ']' :: rest1 := by
  obtain ⟨u, hu⟩ := sw_iff_exists.mp h
  rw [show miningPat ++ u = '[' :: 'm' :: 'i' :: 'n' :: 'i' :: 'n' :: 'g' :: ']' :: u
    from rfl] at hu
  injection hu with h1 h2
  exact ⟨h1, u, h2⟩

theorem matchAt_some_sw {s : List Char} {len : Nat} (h : matchAt s = some len) :
    startsWithCL s literalPart = true := by
  unfold matchAt at h
  by_cases hsw : startsWithCL s literalPart = true
  · exact hsw
  · rw [if_neg hsw] at h
    exact absurd h (by simp)

theorem sw_P13_of_sw_lit {s : List Char}
    (h : startsWithCL s literalPart = true) :
    startsWithCL s minerAddrPat = true := by
  rw [show literalPart = minerAddrPat ++ " = \"tm".data from by decide] at h
  exact sw_of_sw_append h

theorem border13 : ∀ k, k < 13 → 1 ≤ k →
    startsWithCL minerAddrPat (minerAddrPat.drop k) = false := by decide

theorem rfm_skip_clean {r0 : List Char} (hne : r0 ≠ [])
    (hal : ∀ c ∈ r0, isAlnumAscii c = true) :
    ∀ u t, containsCL u minerAddrPat = false →
    replaceFirstMiner (literalPart ++ (r0 ++ ['"']))
        (u ++ ((literalPart ++ (r0 ++ ['"'])) ++ t))
      = u ++ ((literalPart ++ (r0 ++ ['"'])) ++ t) := by
  intro u
  induction u with
  | nil =>
    intro t hu
    simpa using rfm_self hne hal t
  | cons c u' ih =>
    intro t hu
    have hnone : matchAt
        (c :: (u' ++ ((literalPart ++ (r0 ++ ['"'])) ++ t))) = none := by
      rcases hmt : matchAt
          (c :: (u' ++ ((literalPart ++ (r0 ++ ['"'])) ++ t))) with _ | len
      · rfl
      · exfalso
        have h13 : minerAddrPat.length = 13 := by decide
        have h19 : literalPart.length = 19 := by decide
        have hsw13 : startsWithCL
            ((c :: u') ++ ((literalPart ++ (r0 ++ ['"'])) ++ t))
            minerAddrPat = true := by
          rw [List.cons_append]
          exact sw_P13_of_sw_lit (matchAt_some_sw hmt)
        by_cases hlen : (c :: u').length ≤ minerAddrPat.length
        · obtain ⟨hx, hy⟩ := sw_split_of_lt hsw13 hlen
          by_cases heq : (c :: u').length = minerAddrPat.length
          · have hswx : startsWithCL (c :: u') minerAddrPat = true := by
              apply sw_iff_exists.mpr
              refine ⟨[], ?_⟩
              rw [List.append_nil, hx, heq, List.take_length]
            exact absurd (contains_of_sw hswx) (by simp [hu])
          · have hk1 : 1 ≤ (c :: u').length := by simp
            have hk13 : (c :: u').length < minerAddrPat.length := by omega
            rw [sw_append_of_le (by
              rw [List.length_drop]
              simp only [List.length_append]
              omega)] at hy
            rw [sw_append_of_le (by rw [List.length_drop]; omega)] at hy
            rw [show literalPart = minerAddrPat ++ " = \"tm".data
              from by decide] at hy
            rw [sw_append_of_le (by rw [List.length_drop]; omega)] at hy
            rw [border13 (c :: u').length (by omega) (by omega)] at hy
            exact Bool.noConfusion hy
        · rw [sw_append_of_le (le_of_not_le hlen)] at hsw13
          exact absurd (contains_of_sw hsw13) (by simp [hu])
    rw [List.cons_append, rfm_eq_of_matchAt_none hnone,
      ih t (contains_tail_of_not hu)]

theorem ram_eq_of_no_mining (repl : List Char) :
    ∀ s, containsCL s miningPat = false → replaceAllMining repl s = s := by
  intro s
  induction s using replaceAllMining.induct repl with
  | case1 rest ih =>
    intro h
    exfalso
    have hsw : containsCL ('[' :: 'm' :: 'i' :: 'n' :: 'i' :: 'n' :: 'g' :: ']' :: rest)
        miningPat = true := by
      have := contains_of_sw (sw_append_self miningPat rest)
      rwa [show miningPat ++ rest
        = '[' :: 'm' :: 'i' :: 'n' :: 'i' :: 'n' :: 'g' :: ']' :: rest from rfl] at this
    rw [h] at hsw
    exact Bool.noConfusion hsw
  | case2 c rest hnp ih =>
    intro h
    rw [replaceAllMining.eq_2 repl c rest hnp, ih (contains_tail_of_not h)]
  | case3 =>
    intro h
    rfl

theorem ram_sw_pres (z : List Char) :
    ∀ s pat, (∀ c ∈ pat, ¬ c = '[') →
    startsWithCL (replaceAllMining ('[' :: z) s) pat = true →
    startsWithCL s pat = true := by
  intro s
  induction s using replaceAllMining.induct ('[' :: z) with
  | case1 rest ih =>
    intro pat hpat hsw
    cases pat with
    | nil => rfl
    | cons p ps =>
      rw [replaceAllMining.eq_1] at hsw
      simp only [List.cons_append, startsWithCL, Bool.and_eq_true,
        decide_eq_true_eq] at hsw
      exact absurd hsw.1.symm (hpat p (by simp))
  | case2 c rest hnp ih =>
    intro pat hpat hsw
    rw [replaceAllMining.eq_2 _ c rest hnp] at hsw
    cases pat with
    | nil => rfl
    | cons p ps =>
      simp only [startsWithCL, Bool.and_eq_true, decide_eq_true_eq] at hsw ⊢
      exact ⟨hsw.1, ih ps (fun c' hc' => hpat c' (by simp [hc'])) hsw.2⟩
  | case3 =>
    intro pat hpat hsw
    exact hsw

theorem ram_contains13 {repl : List Char}
    (hz : containsCL repl minerAddrPat = true) :
    ∀ s, containsCL s miningPat = true →
    containsCL (replaceAllMining repl s) minerAddrPat = true := by
  intro s
  induction s using replaceAllMining.induct repl with
  | case1 rest ih =>
    intro _
    rw [replaceAllMining.eq_1]
    exact contains_append_of_left _ hz
  | case2 c rest hnp ih =>
    intro h
    rw [replaceAllMining.eq_2 _ c rest hnp]
    have hrest : containsCL rest miningPat = true := by
      simp only [containsCL, Bool.or_eq_true] at h
      rcases h with h | h
      · obtain ⟨h1, rest1, h2⟩ := sw_mining_shape h
        exact (hnp rest1 h1 h2).elim
      · exact h
    exact contains_cons_of c (ih hrest)
  | case3 =>
    intro h
    exact absurd h (by decide)

theorem rfm_ram {r0 : List Char} (hne : r0 ≠ [])
    (hal : ∀ c ∈ r0, isAlnumAscii c = true) :
    ∀ s, containsCL s minerAddrPat = false →
    replaceFirstMiner (literalPart ++ (r0 ++ ['"']))
        (replaceAllMining (miningPat ++ ('\n' :: (literalPart ++ (r0 ++ ['"'])))) s)
      = replaceAllMining (miningPat ++ ('\n' :: (literalPart ++ (r0 ++ ['"'])))) s := by
  intro s
  induction s using replaceAllMining.induct
      (miningPat ++ ('\n' :: (literalPart ++ (r0 ++ ['"'])))) with
  | case1 rest ih =>
    intro _
    rw [replaceAllMining.eq_1]
    have hshape : (miningPat ++ ('\n' :: (literalPart ++ (r0 ++ ['"']))))
          ++ replaceAllMining (miningPat ++ ('\n' :: (literalPart ++ (r0 ++ ['"'])))) rest
        = (miningPat ++ ['\n'])
          ++ ((literalPart ++ (r0 ++ ['"']))
            ++ replaceAllMining (miningPat ++ ('\n' :: (literalPart ++ (r0 ++ ['"'])))) rest) := by
      simp
    rw [hshape]
    exact rfm_skip_clean hne hal (miningPat ++ ['\n']) _ (by decide)
  | case2 c rest hnp ih =>
    intro h
    rw [replaceAllMining.eq_2 _ c rest hnp]
    have hnone : matchAt (c :: replaceAllMining
        (miningPat ++ ('\n' :: (literalPart ++ (r0 ++ ['"'])))) rest) = none := by
      rcases hmt : matchAt (c :: replaceAllMining
          (miningPat ++ ('\n' :: (literalPart ++ (r0 ++ ['"'])))) rest) with _ | len
      · rfl
      · exfalso
        have hsw13 := sw_P13_of_sw_lit (matchAt_some_sw hmt)
        rw [← replaceAllMining.eq_2 _ c rest hnp] at hsw13
        rw [show miningPat ++ ('\n' :: (literalPart ++ (r0 ++ ['"'])))
            = '[' :: ("mining]".data ++ ('\n' :: (literalPart ++ (r0 ++ ['"']))))
          from by rw [show miningPat = '[' :: "mining]".data from by decide]; rfl]
          at hsw13
        have hsw := ram_sw_pres _ (c :: rest) minerAddrPat (by decide) hsw13
        exact absurd (contains_of_sw hsw) (by simp [h])
    rw [rfm_eq_of_matchAt_none hnone, ih (contains_tail_of_not h)]
  | case3 =>
    intro _
    rfl

/-- Counterexample for C2: with a configuration holding two
regex-matching miner-address fields and an address that does not itself
match the value pattern, `Regex::replace` (first match only) rewrites a
different field on the second run, so applying the update twice differs
from applying it once. -/
theorem claim2_counterexample :
    update_zebra_miner_address "hello".data
        (update_zebra_miner_address "hello".data
          "miner_address = \"tmAAAA\"\nminer_address = \"tmBBBB\"".data)
      ≠ update_zebra_miner_address "hello".data
          "miner_address = \"tmAAAA\"\nminer_address = \"tmBBBB\"".data := by
  decide

/-- Claim C2 (amended): for every configuration-file text and every
address of the well-formed shape `tm` followed by at least one ASCII
alphanumeric character (the shape of every real regtest transparent
address), applying the miner-address update twice yields a file content
identical to applying it once — whether the file already contains a
miner_address field (the first regex match is replaced in place) or does
not (the field is inserted after the `[mining]` section header). -/
theorem claim2_idempotent_wellformed :
    ∀ (config A : List Char),
    (∃ rest, A = 't' :: 'm' :: rest ∧ rest ≠ []
      ∧ ∀ c ∈ rest, isAlnumAscii c = true) →
    update_zebra_miner_address A (update_zebra_miner_address A config)
      = update_zebra_miner_address A config := by
  rintro config A ⟨r0, rfl, hne, hal⟩
  unfold update_zebra_miner_address
  rw [minerField_wf r0]
  by_cases hc : containsCL config minerAddrPat = true
  · rw [if_pos hc]
    rcases rfm_shape hne hal config with hid | ⟨u, r, t, hr1, hr2, hs, hres⟩
    · rw [hid, if_pos hc, hid]
    · rw [hres]
      have hcont : containsCL (u ++ (literalPart ++ (r0 ++ ('"' :: t))))
          minerAddrPat = true := by
        apply contains_append_left
        apply contains_of_sw
        exact sw_P13_of_sw_lit (sw_append_self literalPart _)
      rw [if_pos hcont, ← hres]
      exact rfm_idem hne hal config
  · rw [if_neg hc]
    have hcf : containsCL config minerAddrPat = false := by
      revert hc
      cases containsCL config minerAddrPat <;> simp
    by_cases hm : containsCL config miningPat = true
    · have hz : containsCL (miningPat ++ ('\n' :: (literalPart ++ (r0 ++ ['"']))))
          minerAddrPat = true := by
        apply contains_append_left
        apply contains_cons_of
        exact contains_of_sw (sw_P13_of_sw_lit (sw_append_self literalPart _))
      have hc13 := ram_contains13 hz config hm
      rw [if_pos hc13]
      exact rfm_ram hne hal config hcf
    · have hmf : containsCL config miningPat = false := by
        revert hm
        cases containsCL config miningPat <;> simp
      have hid := ram_eq_of_no_mining
        (miningPat ++ ('\n' :: (literalPart ++ (r0 ++ ['"'])))) config hmf
      rw [hid, if_neg (by simp [hcf])]
      exact hid

/-- Witness for C2: a well-formed address applied twice to a config with
an existing matching field yields the once-applied content. -/
theorem claim2_witness :
    update_zebra_miner_address "tmCCCC".data
        (update_zebra_miner_address "tmCCCC".data
          "[mining]\nminer_address = \"tmAAAA\"\n".data)
      = update_zebra_miner_address "tmCCCC".data
          "[mining]\nminer_address = \"tmAAAA\"\n".data :=
  claim2_idempotent_wellformed "[mining]\nminer_address = \"tmAAAA\"\n".data
    "tmCCCC".data ⟨"CCCC".data, by decide, by decide, by decide⟩

/-- Claim C7 (code bug): `update_zebra_miner_address` writes the config
file with a plain `fs::write` (truncate, then write in place), so a
process stopping mid-write can leave an on-disk state that is neither
the complete old content nor the complete new content, contradicting
the required write-to-temp-then-rename atomicity. -/
theorem claim7_crash_state :
    ∃ st ∈ updateMinerCrashStates "tmAAAAABBBBBCCCCCDDDDDEEEEEFFFFF".data
        "[mining]\nminer_address = \"tmAAAA\"\n".data,
      ¬ st = "[mining]\nminer_address = \"tmAAAA\"\n".data
      ∧ ¬ st = update_zebra_miner_address "tmAAAAABBBBBCCCCCDDDDDEEEEEFFFFF".data
          "[mining]\nminer_address = \"tmAAAA\"\n".data := by decide

end ZecKit
